import Mathlib

/-!
Verification of the conventional-gitmoji configuration resolver and template
engine.  The definitions below are a shallow embedding of the repository's
source: `emoji.ts` (emoji code syntax), `configuration.ts` (the zod
configuration schema, its refine/transform steps, the `Configuration` class
constructor, the layered `fromFiles` merge built on the deno standard
library's `deepMerge`, and the lookup methods), and the `Template` class
(modelled from the specification, since only its tests are present in the
repository snapshot).  File I/O and JSON parsing are external collaborators:
documents enter the model as already-parsed JSON trees.
-/

/-! ### JSON values

Parsed JSON documents, as produced by `JSON.parse`.  Arrays and objects are
given as mutually inductive spine types so that every operation below is
plain structural recursion. -/

mutual

inductive Json where
  | null
  | bool (b : Bool)
  | num (n : Int)
  | str (s : String)
  | arr (elems : JArr)
  | obj (fields : JObj)

inductive JArr where
  | nil
  | cons (head : Json) (tail : JArr)

inductive JObj where
  | nil
  | cons (key : String) (val : Json) (tail : JObj)

end

/-- Own-property lookup on a JSON object, first binding wins (a `JSON.parse`
result never has duplicate keys). -/
def JObj.lookup : JObj → String → Option Json
  | .nil, _ => none
  | .cons k v tail, key => if k == key then some v else tail.lookup key

/-- Keys of a JSON object in insertion order, in the sense of `Object.keys`. -/
def JObj.keys : JObj → List String
  | .nil => []
  | .cons k _ tail => k :: tail.keys

def JObj.append : JObj → JObj → JObj
  | .nil, gs => gs
  | .cons k v tail, gs => .cons k v (tail.append gs)

def JArr.append : JArr → JArr → JArr
  | .nil, bs => bs
  | .cons a tail, bs => .cons a (tail.append bs)

def JArr.toList : JArr → List Json
  | .nil => []
  | .cons a tail => a :: tail.toList

def JObj.ofList : List (String × Json) → JObj
  | [] => .nil
  | (k, v) :: rest => .cons k v (JObj.ofList rest)

def JArr.ofList : List Json → JArr
  | [] => .nil
  | v :: rest => .cons v (JArr.ofList rest)

/-- Fields of a JSON value when it is an object, else nothing. -/
def Json.lookupField : Json → String → Option Json
  | .obj fs, k => fs.lookup k
  | _, _ => none

/-! ### deepMerge (deno std `collections/deep_merge.ts`, default options)

`deepMergeInternal` iterates the set of keys of both records (record keys
first, then other-only keys, first occurrence each, skipping `__proto__`).
For a key present in both with two non-null object values it merges them:
two plain objects merge recursively, two arrays concatenate (the default
`arrays: "merge"` strategy), anything else is replaced by the right value;
for every other key the right value wins when present, else the left. -/

/-- Keys of `gs` that are not keys of the left record and not previously
seen, with their values: the other-only part of the merged record. -/
def rightOnly (leftKeys : List String) : JObj → List String → JObj
  | .nil, _ => .nil
  | .cons k b tail, seen =>
    if leftKeys.contains k || seen.contains k || k == "__proto__" then
      rightOnly leftKeys tail seen
    else .cons k b (rightOnly leftKeys tail (k :: seen))

mutual

/-- Merge of two JSON values in the sense of deno's `mergeObjects` composed
with the per-key dispatch of `deepMergeInternal`: plain objects merge
recursively, arrays concatenate, everything else is replaced by the right
value. -/
def jmergeVal : Json → Json → Json
  | .obj fs, b =>
    match b with
    | .obj gs => .obj ((jmergeLeft gs fs []).append (rightOnly fs.keys gs []))
    | _ => b
  | .arr as, b =>
    match b with
    | .arr bs => .arr (as.append bs)
    | _ => b
  | _, b => b

/-- Left part of a record merge: every first-occurrence key of the left
record (skipping `__proto__`), merged with the right record's value at that
key when it has one. -/
def jmergeLeft (gs : JObj) : JObj → List String → JObj
  | .nil, _ => .nil
  | .cons k a tail, seen =>
    if seen.contains k || k == "__proto__" then jmergeLeft gs tail seen
    else
      match gs.lookup k with
      | some b => .cons k (jmergeVal a b) (jmergeLeft gs tail (k :: seen))
      | none => .cons k a (jmergeLeft gs tail (k :: seen))

end

/-- deno std `deepMerge(record, other)` with the default options
(`arrays: "merge"`, i.e. concatenation), as invoked by
`Configuration.fromFiles` on the two parsed documents. -/
def deepMerge (record other : Json) : Json := jmergeVal record other

/-- JavaScript property assignment `obj[k] = v`: replaces the value in place
when the key exists, appends the binding otherwise, no-op on non-objects. -/
def setFieldObj : JObj → String → Json → JObj
  | .nil, k, v => .cons k v .nil
  | .cons k' v' tail, k, v =>
    if k' == k then .cons k' v tail else .cons k' v' (setFieldObj tail k v)

def setField : Json → String → Json → Json
  | .obj fs, k, v => .obj (setFieldObj fs k v)
  | j, _, _ => j

/-! ### Emoji validation (`emoji.ts`)

`EMOJI_CODE_REGEX` is `^:\w+:$`.  The emoji-character table
(`EMOJI_CHAR_REGEX_GLOBAL`, the `emoji-regex` package) is an external
collaborator per the specification, so it enters the model as a predicate
parameter `emojiCharOk`. -/

/-- Matches `\w` without the unicode flag: ASCII letters, digits, underscore. -/
def isWordChar (c : Char) : Bool := c.isAlphanum || c == '_'

/-- Test of `EMOJI_CODE_REGEX`, the anchored pattern `^:\w+:$`. -/
def emojiCodeOk (s : String) : Bool :=
  match s.data with
  | ':' :: rest =>
    decide (rest.length ≥ 2) && (rest.getLast? == some ':') && rest.dropLast.all isWordChar
  | _ => false

/-! ### Schema data types (`configuration.ts`) -/

/-- Valid release types, `ReleaseTypeSchema`. -/
inductive ReleaseType where
  | major
  | minor
  | patch
deriving DecidableEq

/-- Emoji object of `EmojiObjectSchema`: character, code, and name. -/
structure EmojiObject where
  character : String
  code : String
  name : String
deriving DecidableEq

/-- Commit type definition, `CommitTypeSchema`. -/
structure CommitType where
  type : String
  title : String
  description : String
  semver : Option ReleaseType
  changelog : Bool
  emoji : EmojiObject
deriving DecidableEq

/-- Commit alias definition, `CommitAliasSchema`: a `CommitType` without
`title` plus a `name`. -/
structure CommitAlias where
  type : String
  name : String
  description : String
  semver : Option ReleaseType
  changelog : Bool
  emoji : EmojiObject
deriving DecidableEq

/-- Commit type carrying the `index` assigned by the `Configuration`
constructor (`CommitType & \x7b index: number \x7d`). -/
structure IndexedCommitType extends CommitType where
  index : Int
deriving DecidableEq

/-- Validation failure raised by schema parsing (zod's `ZodError`). -/
inductive ValidationError where
  | invalid (message : String)
deriving DecidableEq

/-! ### Field validators -/

/-- JavaScript `String.prototype.trim`: strip whitespace from both ends. -/
def strTrim (s : String) : String :=
  String.mk (((s.data.dropWhile Char.isWhitespace).reverse.dropWhile Char.isWhitespace).reverse)

/-- `TextSchema = z.string().trim().min(1)`: a string input is trimmed and
must then be non-empty. -/
def parseText : Json → Except ValidationError String
  | .str s =>
    let t := strTrim s
    if t.isEmpty then .error (.invalid "String must contain at least 1 character(s)")
    else .ok t
  | _ => .error (.invalid "Expected string")

/-- `z.array(TextSchema)`. -/
def parseTextArray : Json → Except ValidationError (List String)
  | .arr elems => elems.toList.mapM parseText
  | _ => .error (.invalid "Expected array")

/-- `ReleaseTypeSchema.nullable()`. -/
def parseReleaseType : Json → Except ValidationError (Option ReleaseType)
  | .null => .ok none
  | .str s =>
    if s == "major" then .ok (some .major)
    else if s == "minor" then .ok (some .minor)
    else if s == "patch" then .ok (some .patch)
    else .error (.invalid "Invalid enum value")
  | _ => .error (.invalid "Expected string")

def parseBool : Json → Except ValidationError Bool
  | .bool b => .ok b
  | _ => .error (.invalid "Expected boolean")

/-- Extraction of a required object field followed by its field schema; an
absent field is a validation issue. -/
def requireField (fs : JObj) (name : String) (p : Json → Except ValidationError α) :
    Except ValidationError α :=
  match fs.lookup name with
  | some v => p v
  | none => .error (.invalid ("Required: " ++ name))

/-- `EmojiObjectSchema`: `character` must satisfy the external emoji-character
pattern, `code` must match `^:\w+:$`, `name` is any string. -/
def parseEmojiObject (emojiCharOk : String → Bool) : Json → Except ValidationError EmojiObject
  | .obj fs => do
    let character ←
      requireField fs "character" fun v =>
        match v with
        | .str s => if emojiCharOk s then .ok s else .error (.invalid "Invalid emoji character")
        | _ => .error (.invalid "Expected string")
    let code ←
      requireField fs "code" fun v =>
        match v with
        | .str s => if emojiCodeOk s then .ok s else .error (.invalid "Invalid emoji code")
        | _ => .error (.invalid "Expected string")
    let name ←
      requireField fs "name" fun v =>
        match v with
        | .str s => .ok s
        | _ => .error (.invalid "Expected string")
    pure { character := character, code := code, name := name }
  | _ => .error (.invalid "Expected object")

/-- `CommitTypeSchema`. -/
def parseCommitType (emojiCharOk : String → Bool) : Json → Except ValidationError CommitType
  | .obj fs => do
    let type ← requireField fs "type" parseText
    let title ← requireField fs "title" parseText
    let description ← requireField fs "description" parseText
    let semver ← requireField fs "semver" parseReleaseType
    let changelog ← requireField fs "changelog" parseBool
    let emoji ← requireField fs "emoji" (parseEmojiObject emojiCharOk)
    pure { type := type, title := title, description := description,
           semver := semver, changelog := changelog, emoji := emoji }
  | _ => .error (.invalid "Expected object")

/-- `CommitAliasSchema = CommitTypeSchema.omit(\x7b title \x7d).extend(\x7b name \x7d)`. -/
def parseCommitAlias (emojiCharOk : String → Bool) : Json → Except ValidationError CommitAlias
  | .obj fs => do
    let type ← requireField fs "type" parseText
    let name ← requireField fs "name" parseText
    let description ← requireField fs "description" parseText
    let semver ← requireField fs "semver" parseReleaseType
    let changelog ← requireField fs "changelog" parseBool
    let emoji ← requireField fs "emoji" (parseEmojiObject emojiCharOk)
    pure { type := type, name := name, description := description,
           semver := semver, changelog := changelog, emoji := emoji }
  | _ => .error (.invalid "Expected object")

/-- `z.record(TextSchema, V)`: every key is parsed through `TextSchema`
(trimmed, non-empty) and every value through the value schema, in insertion
order. -/
def parseRecordFields (p : Json → Except ValidationError α) :
    JObj → Except ValidationError (List (String × α))
  | .nil => .ok []
  | .cons k v tail => do
    let key ← parseText (.str k)
    let a ← p v
    let rest ← parseRecordFields p tail
    pure ((key, a) :: rest)

def parseRecord (p : Json → Except ValidationError α) : Json → Except ValidationError (List (String × α))
  | .obj fs => parseRecordFields p fs
  | _ => .error (.invalid "Expected object")

/-- Own property names of `Object.prototype`.  The zod-parsed `types` and
`aliases` records are plain objects inheriting from `Object.prototype`, so
the JavaScript `in` operator — used by the schema's refine step and by the
name lookups — answers `true` for these names even when they are not keys
of the record. -/
def objectPrototypeNames : List String :=
  ["constructor", "hasOwnProperty", "isPrototypeOf", "propertyIsEnumerable",
   "toLocaleString", "toString", "valueOf", "__defineGetter__", "__defineSetter__",
   "__lookupGetter__", "__lookupSetter__", "__proto__"]

/-! ### Configuration schema (`ConfigurationSchema`) -/

/-- Result of the plain `z.object` stage of `ConfigurationSchema`, before the
`refine` and `transform` steps run.  `scopes` is declared with `z.custom`,
so at this stage it passes through as the raw JSON value (or `none` when the
field was absent); `order` defaults to `[]`. -/
structure RawConfiguration where
  types : List (String × CommitType)
  aliases : List (String × CommitAlias)
  fallback : String
  scopes : Option Json
  order : List String

/-- Object stage of `ConfigurationSchema.parse`. -/
def parseConfigurationObject (emojiCharOk : String → Bool) :
    Json → Except ValidationError RawConfiguration
  | .obj fs => do
    let types ← requireField fs "types" (parseRecord (parseCommitType emojiCharOk))
    let aliases ← requireField fs "aliases" (parseRecord (parseCommitAlias emojiCharOk))
    let fallback ← requireField fs "fallback" parseText
    let scopes := fs.lookup "scopes"
    let order ←
      match fs.lookup "order" with
      | some v => parseTextArray v
      | none => Except.ok ([] : List String)
    pure { types := types, aliases := aliases, fallback := fallback,
           scopes := scopes, order := order }
  | _ => .error (.invalid "Expected object")

/-- Order completion of the `transform` step: for each key of `types` in
iteration order, push it onto `order` when not already present. -/
def completeOrder (typeKeys : List String) (order : List String) : List String :=
  typeKeys.foldl (fun acc k => if acc.contains k then acc else acc ++ [k]) order

/-- Per-key scope parse of the transform's `schema.parse(scopes)`: the value
listed under a `types` key must be a valid text array, an unlisted key
defaults to `[]`. -/
def scopeEntry (fs : JObj) (k : String) : Except ValidationError (List String) :=
  match fs.lookup k with
  | none => .ok []
  | some v => parseTextArray v

/-- Transform's `z.object(shape).parse(scopes)` where `shape` has exactly the
keys of `types`: non-objects are rejected, unknown keysare stripped, known
keys are validated or defaulted. -/
def parseScopes (typeKeys : List String) : Option Json → Except ValidationError (List (String × List String))
  | some (.obj fs) => typeKeys.mapM fun k => (scopeEntry fs k).map (fun l => (k, l))
  | _ => .error (.invalid "Expected object")

/-- JavaScript `Array.prototype.indexOf`: first position of `s`, `-1` when
absent. -/
def jsIndexOf (l : List String) (s : String) : Int :=
  match l.findIdx? (fun o => o == s) with
  | some n => (n : Int)
  | none => -1

/-- Resolved configuration aggregate: the `Configuration` class instance. -/
structure Configuration where
  types : List (String × IndexedCommitType)
  aliases : List (String × CommitAlias)
  fallback : String
  scopes : List (String × List String)
  order : List String
deriving DecidableEq

/-- Refine, transform and constructor of `Configuration`: check
`fallback in types` — the JavaScript `in` operator, which is satisfied by
an own key of `types` or by any `Object.prototype` property name — then
complete `order` with the missing `types` keys, parse `scopes` against the
shape built from the `types` keys, check every `order` entry against
`z.array(schema.keyof())`, and assign
`index = order.indexOf(record.type)` to every record of `types`. -/
def constructConfiguration (raw : RawConfiguration) : Except ValidationError Configuration :=
  let typeKeys := raw.types.map Prod.fst
  if typeKeys.contains raw.fallback || objectPrototypeNames.contains raw.fallback then
    let order := completeOrder typeKeys raw.order
    match parseScopes typeKeys raw.scopes with
    | .error e => .error e
    | .ok scopes =>
      if order.all (fun k => typeKeys.contains k) then
        .ok { types := raw.types.map fun p =>
                (p.1, { toCommitType := p.2, index := jsIndexOf order p.2.type }),
              aliases := raw.aliases, fallback := raw.fallback,
              scopes := scopes, order := order }
      else .error (.invalid "Invalid enum value")
  else .error (.invalid "The fallback type must be a valid commit type.")

/-- Full resolution of one parsed document: `ConfigurationSchema.parse`
followed by the constructor's index assignment.  This is `fromFile` minus
the file read. -/
def Configuration.fromJson (emojiCharOk : String → Bool) (j : Json) :
    Except ValidationError Configuration :=
  parseConfigurationObject emojiCharOk j >>= constructConfiguration

/-- Layered resolution, `Configuration.fromFiles` minus the file reads:
deep-merge the two parsed documents, overwrite `order` with the custom
document's `order` whenever the custom document has that key, then resolve
the merged document. -/
def Configuration.fromFilesJson (emojiCharOk : String → Bool) (rawDefaults rawCustom : Json) :
    Except ValidationError Configuration :=
  let merged := deepMerge rawDefaults rawCustom
  let merged :=
    match rawCustom with
    | .obj cfs =>
      match cfs.lookup "order" with
      | some ov => setField merged "order" ov
      | none => merged
    | _ => merged
  Configuration.fromJson emojiCharOk merged

/-! ### Lookup operations -/

/-- Own-property association lookup, the `record[name]` access for a name
that is an own key of the record. -/
def lookupAssoc : List (String × α) → String → Option α
  | [], _ => none
  | (k, v) :: rest, key => if k == key then some v else lookupAssoc rest key

/-- Outcome of a JavaScript `name in record` guard followed by
`record[name]` on a plain object: the stored record for an own key, the
inherited `Object.prototype` member (a function, or the prototype object
for `__proto__` — represented abstractly by its name) when the name is an
`Object.prototype` property name that no own key shadows, and the null
path otherwise. -/
inductive JsMember (α : Type) where
  | record (a : α)
  | inherited (name : String)
  | null
deriving DecidableEq

/-- The `name in record` guard followed by `record[name]`: own keys win,
then the prototype chain is consulted, and only a true miss takes the
`return null` path. -/
def jsRecordGet (l : List (String × α)) (name : String) : JsMember α :=
  match lookupAssoc l name with
  | some v => .record v
  | none =>
    if objectPrototypeNames.contains name then .inherited name else .null

/-- `findTypeByName`: the `name in this.types` guard uses the JavaScript
`in` operator, which consults the prototype chain, so an
`Object.prototype` property name that is not a key yields the inherited
member instead of `null`. -/
def Configuration.findTypeByName (c : Configuration) (name : String) :
    JsMember IndexedCommitType :=
  jsRecordGet c.types name

/-- `findAliasByName`: same `name in this.aliases` guard, with the same
prototype-chain behaviour. -/
def Configuration.findAliasByName (c : Configuration) (name : String) :
    JsMember CommitAlias :=
  jsRecordGet c.aliases name

/-- `findTypeByAliasName`: `findAliasByName`, an `=== null` check, then
`findTypeByName(alias.type)`.  An inherited alias is a function, so
`alias.type` is `undefined` and the subsequent `in` check coerces the
property key to the string `undefined`. -/
def Configuration.findTypeByAliasName (c : Configuration) (name : String) :
    JsMember IndexedCommitType :=
  match c.findAliasByName name with
  | .null => .null
  | .record al => c.findTypeByName al.type
  | .inherited _ => c.findTypeByName "undefined"

/-- `findTypeByEmojiCode`: `for (const key in this.types)` visits only own
enumerable keys (`Object.prototype` members are non-enumerable), so the
scan has no prototype leak and the miss really returns `null`. -/
def Configuration.findTypeByEmojiCode (c : Configuration) (emoji : String) : Option IndexedCommitType :=
  (c.types.find? fun p => p.2.emoji.code == emoji).map Prod.snd

def Configuration.findAliasByEmojiCode (c : Configuration) (emoji : String) : Option CommitAlias :=
  (c.aliases.find? fun p => p.2.emoji.code == emoji).map Prod.snd

/-! ### Template engine

The repository snapshot carries only `template.test.ts`; the class itself is
absent, so this section is modelled from the specification (section 4.2 of
the design document) and corroborated by the tests. -/

/-- Modelled from the spec: scalar replacement values of the missing
`template.ts` — a string, number, or boolean, converted to its canonical
text form before substitution. -/
inductive Scalar where
  | str (s : String)
  | num (n : Int)
  | bool (b : Bool)
deriving DecidableEq

/-- Decimal digit expansion with structural fuel (`fuel ≥ n` suffices). -/
def natDecAux : Nat → Nat → List Char → List Char
  | 0, _, acc => acc
  | _ + 1, 0, acc => acc
  | fuel + 1, n, acc => natDecAux fuel (n / 10) (Nat.digitChar (n % 10) :: acc)

def natDec (n : Nat) : String :=
  if n = 0 then "0" else String.mk (natDecAux (n + 1) n [])

/-- Canonical decimal rendering of an integer, the `String(number)` form. -/
def intDec : Int → String
  | .ofNat n => natDec n
  | .negSucc m => "-" ++ natDec (m + 1)

/-- Modelled from the spec: canonical text form of a scalar. -/
def Scalar.toText : Scalar → String
  | .str s => s
  | .num n => intDec n
  | .bool b => if b then "true" else "false"

/-- Modelled from the spec: the missing `template.ts` `Template` class — an
immutable pattern string plus default replacement values (the field is named
`replacements` in the tests). -/
structure Template where
  source : String
  replacements : List (String × Scalar) := []
deriving DecidableEq

/-- Modelled from the spec: a pattern segment — a literal character or a
placeholder name that stood between one pair of braces. -/
inductive Seg where
  | lit (c : Char)
  | hole (name : String)
deriving DecidableEq

/-- Modelled from the spec: left-to-right placeholder scan.  A placeholder is
a name enclosed in a single pair of braces; a brace that never closes is
literal text. -/
def scanAux : Option (List Char) → List Char → List Seg
  | none, [] => []
  | none, c :: rest =>
    if c = '\x7b' then scanAux (some []) rest else .lit c :: scanAux none rest
  | some buf, [] => .lit '\x7b' :: buf.reverse.map .lit
  | some buf, c :: rest =>
    if c = '\x7d' then .hole (String.mk buf.reverse) :: scanAux none rest
    else if c = '\x7b' then (.lit '\x7b' :: buf.reverse.map .lit) ++ scanAux (some []) rest
    else scanAux (some (c :: buf)) rest

def parseSegs (s : String) : List Seg := scanAux none s.data

/-- Placeholder names occurring in a segment list, one entry per occurrence. -/
def holeNames (segs : List Seg) : List String :=
  segs.filterMap fun s =>
    match s with
    | .hole n => some n
    | .lit _ => none

/-- Modelled from the spec: replacement resolution for one placeholder name —
values supplied to the call take priority over the instance defaults. -/
def resolve (values defaults : List (String × Scalar)) (name : String) : Option Scalar :=
  match lookupAssoc values name with
  | some v => some v
  | none => lookupAssoc defaults name

/-- Modelled from the spec: rendering of one segment — a resolvable
placeholder becomes its value's text, an unresolvable one stays verbatim
with its braces intact. -/
def Seg.render (res : String → Option Scalar) : Seg → String
  | .lit c => String.mk [c]
  | .hole n =>
    match res n with
    | some v => v.toText
    | none => "\x7b" ++ n ++ "\x7d"

def renderSegs (res : String → Option Scalar) (segs : List Seg) : String :=
  String.join (segs.map (Seg.render res))

/-- Modelled from the spec: the error raised by `render` when placeholders
stay unresolved, naming them. -/
structure MissingPlaceholderError where
  placeholders : List String
deriving DecidableEq

/-- Modelled from the spec: `Template.render` — resolve every placeholder
from the supplied values then the defaults; fail with a
`MissingPlaceholderError` naming the unresolved placeholders when any
remains, otherwise return the fully substituted string. -/
def Template.render (t : Template) (values : List (String × Scalar)) :
    Except MissingPlaceholderError String :=
  let segs := parseSegs t.source
  let res := resolve values t.replacements
  let missing := (holeNames segs).filter fun n => (res n).isNone
  if missing.isEmpty then .ok (renderSegs res segs) else .error ⟨missing⟩

/-- Modelled from the spec: `Template.partialRender` — substitute exactly
the placeholders that received a value in this call, keep every other
placeholder verbatim, and carry forward exactly the defaults whose
placeholder is still open in the produced pattern.  The repository's tests
(`template.test.ts`, the partialRender cases) and the specification's
worked example pin this down: defaults are not consumed by a partial
render, they are carried for the still-open placeholders. -/
def Template.partialRender (t : Template) (values : List (String × Scalar)) : Template :=
  let segs := parseSegs t.source
  let res := fun n => lookupAssoc values n
  let missing := (holeNames segs).filter fun n => (res n).isNone
  { source := renderSegs res segs,
    replacements := t.replacements.filter fun p => missing.contains p.1 }

/-- Modelled from the spec: string coercion of a template returns the
original pattern unchanged. -/
def Template.toText (t : Template) : String := t.source

/-! ### Sample data for concrete evaluations -/

/-- Stand-in for the external emoji-character matcher that accepts every
string; theorems that depend on the matcher quantify over it. -/
def anyEmojiChar : String → Bool := fun _ => true

def sampleEmoji : EmojiObject :=
  { character := "E", code := ":sparkles:", name := "sparkles" }

def sampleEmojiJson : Json :=
  .obj (.ofList [("character", .str "E"), ("code", .str ":sparkles:"), ("name", .str "sparkles")])

def mkCommitType (ty : String) : CommitType :=
  { type := ty, title := "Title", description := "Desc", semver := none,
    changelog := true, emoji := sampleEmoji }

def mkCommitAlias (ty nm : String) : CommitAlias :=
  { type := ty, name := nm, description := "Desc", semver := none,
    changelog := false, emoji := sampleEmoji }

def jCommitType (ty : String) : Json :=
  .obj (.ofList [("type", .str ty), ("title", .str "Title"), ("description", .str "Desc"),
    ("semver", .null), ("changelog", .bool true), ("emoji", sampleEmojiJson)])

def jCommitAlias (ty nm : String) : Json :=
  .obj (.ofList [("type", .str ty), ("name", .str nm), ("description", .str "Desc"),
    ("semver", .null), ("changelog", .bool false), ("emoji", sampleEmojiJson)])

/-- Default document: two commit types `a`, `b`, no aliases, fallback `a`,
scopes listing `a ↦ ["x"]`, order `["a", "b"]`. -/
def docDflt : Json :=
  .obj (.ofList
    [("types", .obj (.ofList [("a", jCommitType "a"), ("b", jCommitType "b")])),
     ("aliases", .obj .nil),
     ("fallback", .str "a"),
     ("scopes", .obj (.ofList [("a", .arr (.ofList [.str "x"]))])),
     ("order", .arr (.ofList [.str "a", .str "b"]))])

/-- Fields of a custom document that overrides `fallback` and `order`. -/
def customOrderFields : JObj :=
  .ofList [("fallback", .str "b"), ("order", .arr (.ofList [.str "b"]))]

def docCustomOrder : Json := .obj customOrderFields

/-- Custom document that only lists scopes `a ↦ ["y"]`. -/
def docCustomScopes : Json :=
  .obj (.ofList [("scopes", .obj (.ofList [("a", .arr (.ofList [.str "y"]))]))])

/-- Document whose single record is stored under key `a` but carries the
`type` field `b`. -/
def docKeyMismatch : Json :=
  .obj (.ofList
    [("types", .obj (.ofList [("a", jCommitType "b")])),
     ("aliases", .obj .nil), ("fallback", .str "a"),
     ("scopes", .obj .nil), ("order", .arr .nil)])

/-- Document with a duplicated entry in `order`. -/
def docDupOrder : Json :=
  .obj (.ofList
    [("types", .obj (.ofList [("a", jCommitType "a")])),
     ("aliases", .obj .nil), ("fallback", .str "a"),
     ("scopes", .obj .nil),
     ("order", .arr (.ofList [.str "a", .str "a"]))])

/-- Document whose raw `scopes` lists the alias key `dep`. -/
def docAliasScopes : Json :=
  .obj (.ofList
    [("types", .obj (.ofList [("a", jCommitType "a")])),
     ("aliases", .obj (.ofList [("dep", jCommitAlias "a" "dep")])),
     ("fallback", .str "a"),
     ("scopes", .obj (.ofList [("dep", .arr (.ofList [.str "x"]))])),
     ("order", .arr .nil)])

/-- Typed raw configuration: types `a`, `b`, alias `dep ↦ a`, fallback `a`,
empty scopes object, raw order `["b"]`. -/
def rawSample : RawConfiguration :=
  { types := [("a", mkCommitType "a"), ("b", mkCommitType "b")],
    aliases := [("dep", mkCommitAlias "a" "dep")],
    fallback := "a", scopes := some (.obj .nil), order := ["b"] }

/-- The resolution of `rawSample`. -/
def cfgSample : Configuration :=
  { types := [("a", { toCommitType := mkCommitType "a", index := 1 }),
              ("b", { toCommitType := mkCommitType "b", index := 0 })],
    aliases := [("dep", mkCommitAlias "a" "dep")],
    fallback := "a",
    scopes := [("a", []), ("b", [])],
    order := ["b", "a"] }

/-- The resolution of the layered load of `docDflt` under `docCustomOrder`. -/
def cfgMerged : Configuration :=
  { types := [("a", { toCommitType := mkCommitType "a", index := 1 }),
              ("b", { toCommitType := mkCommitType "b", index := 0 })],
    aliases := [],
    fallback := "b",
    scopes := [("a", ["x"]), ("b", [])],
    order := ["b", "a"] }

/-- Raw configuration whose fallback is not a key of `types`. -/
def rawFallbackMissing : RawConfiguration :=
  { types := [("a", mkCommitType "a")], aliases := [],
    fallback := "zzz", scopes := some (.obj .nil), order := [] }

/-- Document whose fallback is the `Object.prototype` property name
`toString`, absent from its `types`. -/
def docProtoFallback : Json :=
  .obj (.ofList
    [("types", .obj (.ofList [("a", jCommitType "a")])),
     ("aliases", .obj .nil), ("fallback", .str "toString"),
     ("scopes", .obj .nil), ("order", .arr .nil)])

/-- Raw configuration whose order lists a key absent from `types`. -/
def rawBogusOrder : RawConfiguration :=
  { types := [("a", mkCommitType "a")], aliases := [],
    fallback := "a", scopes := some (.obj .nil), order := ["bogus"] }

/-- Template with defaults, from the render tests. -/
def tmplGreeting : Template :=
  { source := "Hello {name}! My age is {age}.",
    replacements := [("name", .str "DefaultName"), ("age", .num 25)] }

/-- Template of the partial-render tests, defaults for both names. -/
def tmplNames : Template :=
  { source := "My name is {first_name} {last_name}",
    replacements := [("first_name", .str "Unknown"), ("last_name", .str "Unknown")] }

/-- Template with one placeholder and no defaults. -/
def tmplHi : Template := { source := "Hi {name}!" }

/-! ### Helper lemmas: association lists -/

theorem lookupAssoc_mem {l : List (String × α)} {k : String} {v : α}
    (h : lookupAssoc l k = some v) : (k, v) ∈ l := by
  induction l with
  | nil => simp [lookupAssoc] at h
  | cons p rest ih =>
    obtain ⟨k', v'⟩ := p
    by_cases hk : k' = k
    · subst hk
      simp [lookupAssoc] at h
      simp [h]
    · simp only [lookupAssoc, beq_iff_eq, if_neg hk] at h
      exact List.mem_cons_of_mem _ (ih h)

theorem lookupAssoc_eq_none {l : List (String × α)} {k : String} :
    lookupAssoc l k = none ↔ k ∉ l.map Prod.fst := by
  induction l with
  | nil => simp [lookupAssoc]
  | cons p rest ih =>
    obtain ⟨k', v'⟩ := p
    by_cases hk : k' = k
    · subst hk
      simp [lookupAssoc]
    · simp only [lookupAssoc, beq_iff_eq, if_neg hk, List.map_cons, List.mem_cons, ih]
      constructor
      · rintro hn (h | h)
        · exact hk h.symm
        · exact hn h
      · intro hn
        exact fun h => hn (Or.inr h)

theorem lookupAssoc_isSome {l : List (String × α)} {k : String} :
    (lookupAssoc l k).isSome = true ↔ k ∈ l.map Prod.fst := by
  rcases h : lookupAssoc l k with _ | v
  · simpa [Option.isSome] using lookupAssoc_eq_none.1 h
  · simp only [Option.isSome, true_iff]
    have := lookupAssoc_mem h
    exact List.mem_map.2 ⟨(k, v), this, rfl⟩

theorem lookupAssoc_map_self {β : Type} (f : String → β) (l : List String) (k : String)
    (h : k ∈ l) : lookupAssoc (l.map fun x => (x, f x)) k = some (f k) := by
  induction l with
  | nil => cases h
  | cons x rest ih =>
    by_cases hx : x = k
    · subst hx
      simp [lookupAssoc]
    · rcases List.mem_cons.1 h with h' | h'
      · exact absurd h'.symm hx
      · simpa [lookupAssoc, hx] using ih h'

theorem contains_iff_memS {l : List String} {a : String} : l.contains a = true ↔ a ∈ l := by
  simp [List.contains_iff_exists_mem_beq, beq_iff_eq]

theorem contains_eq_false_iffS {l : List String} {a : String} :
    l.contains a = false ↔ a ∉ l := by
  rw [← Bool.not_eq_true, not_iff_not]
  exact contains_iff_memS

/-! ### Helper lemmas: order completion -/

theorem completeOrder_nil (ord : List String) : completeOrder [] ord = ord := rfl

theorem completeOrder_cons (k : String) (tks ord : List String) :
    completeOrder (k :: tks) ord =
      completeOrder tks (if ord.contains k then ord else ord ++ [k]) := rfl

theorem completeOrder_mem {tks : List String} {a : String} :
    ∀ ord : List String, a ∈ completeOrder tks ord ↔ a ∈ ord ∨ a ∈ tks := by
  induction tks with
  | nil => intro ord; simp [completeOrder_nil]
  | cons k rest ih =>
    intro ord
    rw [completeOrder_cons]
    by_cases hc : ord.contains k
    · rw [if_pos hc, ih]
      have hk : k ∈ ord := contains_iff_memS.1 hc
      constructor
      · rintro (h | h)
        · exact Or.inl h
        · exact Or.inr (List.mem_cons_of_mem _ h)
      · rintro (h | h)
        · exact Or.inl h
        · rcases List.mem_cons.1 h with h' | h'
          · exact Or.inl (h' ▸ hk)
          · exact Or.inr h'
    · rw [if_neg hc, ih]
      simp only [List.mem_append, List.mem_singleton, List.mem_cons]
      tauto

theorem completeOrder_nodup {tks : List String} :
    ∀ ord : List String, ord.Nodup → (completeOrder tks ord).Nodup := by
  induction tks with
  | nil => intro ord h; simpa [completeOrder_nil] using h
  | cons k rest ih =>
    intro ord h
    rw [completeOrder_cons]
    by_cases hc : ord.contains k
    · rw [if_pos hc]; exact ih ord h
    · rw [if_neg hc]
      refine ih _ ?_
      have hk : k ∉ ord := contains_eq_false_iffS.1 (by simpa using hc)
      simpa [List.nodup_append, h] using hk

theorem completeOrder_eq_append {tks : List String} (hnd : tks.Nodup) :
    ∀ ord : List String,
      completeOrder tks ord = ord ++ tks.filter (fun k => !(ord.contains k)) := by
  induction tks with
  | nil => intro ord; simp [completeOrder_nil]
  | cons k rest ih =>
    intro ord
    have hk : k ∉ rest := (List.nodup_cons.1 hnd).1
    have hnd' : rest.Nodup := (List.nodup_cons.1 hnd).2
    rw [completeOrder_cons]
    by_cases hc : ord.contains k
    · rw [if_pos hc, ih hnd' ord]
      have hkord : k ∈ ord := contains_iff_memS.1 hc
      simp [List.filter_cons, hkord]
    · rw [if_neg hc, ih hnd' (ord ++ [k])]
      have hkord : k ∉ ord := contains_eq_false_iffS.1 (by simpa using hc)
      have hfilter : rest.filter (fun x => !((ord ++ [k]).contains x)) =
          rest.filter (fun x => !(ord.contains x)) := by
        refine List.filter_congr ?_
        intro x hx
        have hxk : x ≠ k := fun h => hk (h ▸ hx)
        simp [hxk]
      rw [hfilter]
      simp [List.filter_cons, hkord, List.append_assoc]

/-! ### Helper lemmas: Except -/

theorem except_bind_ok {ε α β : Type} {m : Except ε α} {f : α → Except ε β} {b : β}
    (h : (m >>= f) = .ok b) : ∃ a, m = .ok a ∧ f a = .ok b := by
  cases m with
  | error e => simp [Bind.bind, Except.bind] at h
  | ok a => exact ⟨a, rfl, by simpa [Bind.bind, Except.bind] using h⟩

/-! ### Helper lemmas: findIdx? positions -/

theorem findIdx_of_mem {l : List String} {k : String} (h : k ∈ l) :
    ∃ n, l.findIdx? (fun o => o == k) = some n ∧ l.get? n = some k ∧ n < l.length := by
  induction l with
  | nil => cases h
  | cons x rest ih =>
    by_cases hx : x = k
    · subst hx
      exact ⟨0, by simp, by simp, by simp⟩
    · rcases List.mem_cons.1 h with h' | h'
      · exact absurd h'.symm hx
      · obtain ⟨n, hfind, hget, hlt⟩ := ih h'
        refine ⟨n + 1, ?_, by simpa using hget, by simpa using hlt⟩
        rw [List.findIdx?_cons, if_neg (by simpa using hx), List.findIdx?_succ, hfind]
        rfl

theorem findIdx_of_get_nodup {l : List String} (hnd : l.Nodup) :
    ∀ {n : Nat} {k : String}, l.get? n = some k → l.findIdx? (fun o => o == k) = some n := by
  induction l with
  | nil => intro n k h; simp at h
  | cons x rest ih =>
    intro n k h
    have hx : x ∉ rest := (List.nodup_cons.1 hnd).1
    have hnd' : rest.Nodup := (List.nodup_cons.1 hnd).2
    cases n with
    | zero =>
      simp only [List.get?_cons_zero, Option.some_inj] at h
      subst h
      simp
    | succ n =>
      simp only [List.get?_cons_succ] at h
      have hk : k ∈ rest := by
        have := List.get?_mem h
        exact this
      have hxk : x ≠ k := fun he => hx (he ▸ hk)
      rw [List.findIdx?_cons, if_neg (by simpa using hxk), List.findIdx?_succ, ih hnd' h]
      rfl

/-! ### Helper lemmas: scope parsing -/

theorem parseScopes_ok_eq {fs : JObj} :
    ∀ (tks : List String) (scopes : List (String × List String)),
      parseScopes tks (some (.obj fs)) = .ok scopes →
      scopes.map Prod.fst = tks ∧ ∀ p ∈ scopes, scopeEntry fs p.1 = .ok p.2 := by
  intro tks
  induction tks with
  | nil =>
    intro scopes h
    simp only [parseScopes, List.mapM_nil] at h
    cases h
    simp
  | cons k rest ih =>
    intro scopes h
    simp only [parseScopes, List.mapM_cons] at h
    obtain ⟨b, hb, h⟩ := except_bind_ok h
    obtain ⟨bs, hbs, h⟩ := except_bind_ok h
    have hscopes : scopes = b :: bs := by
      cases h
      rfl
    subst hscopes
    rcases he : scopeEntry fs k with e | l
    · rw [he] at hb
      simp [Except.map] at hb
    · rw [he] at hb
      simp only [Except.map, Except.ok.injEq] at hb
      subst hb
      have hrest : parseScopes rest (some (.obj fs)) = .ok bs := by
        simpa [parseScopes] using hbs
      obtain ⟨hkeys, hvals⟩ := ih bs hrest
      refine ⟨by simp [hkeys], ?_⟩
      intro p hp
      rcases List.mem_cons.1 hp with h' | h'
      · subst h'
        exact he
      · exact hvals p h'

theorem parseScopes_lookup_some {fs : JObj} {tks : List String}
    {scopes : List (String × List String)}
    (h : parseScopes tks (some (.obj fs)) = .ok scopes) {k : String} (hk : k ∈ tks) :
    ∃ l, scopeEntry fs k = .ok l ∧ lookupAssoc scopes k = some l := by
  obtain ⟨hkeys, hvals⟩ := parseScopes_ok_eq tks scopes h
  have hmem : k ∈ scopes.map Prod.fst := hkeys ▸ hk
  have hsome : (lookupAssoc scopes k).isSome = true := lookupAssoc_isSome.2 hmem
  rcases hl : lookupAssoc scopes k with _ | l
  · rw [hl] at hsome
    cases hsome
  · exact ⟨l, hvals (k, l) (lookupAssoc_mem hl), rfl⟩

theorem parseScopes_lookup_none {fs : JObj} {tks : List String}
    {scopes : List (String × List String)}
    (h : parseScopes tks (some (.obj fs)) = .ok scopes) {k : String} (hk : k ∉ tks) :
    lookupAssoc scopes k = none := by
  obtain ⟨hkeys, _⟩ := parseScopes_ok_eq tks scopes h
  exact lookupAssoc_eq_none.2 (hkeys ▸ hk)

/-! ### Helper lemmas: constructConfiguration -/

theorem constructConfiguration_ok {raw : RawConfiguration} {c : Configuration}
    (h : constructConfiguration raw = .ok c) :
    ((raw.types.map Prod.fst).contains raw.fallback ||
      objectPrototypeNames.contains raw.fallback) = true ∧
    parseScopes (raw.types.map Prod.fst) raw.scopes = .ok c.scopes ∧
    ((completeOrder (raw.types.map Prod.fst) raw.order).all
      fun k => (raw.types.map Prod.fst).contains k) = true ∧
    c.order = completeOrder (raw.types.map Prod.fst) raw.order ∧
    c.types = raw.types.map (fun p =>
      (p.1, { toCommitType := p.2,
              index := jsIndexOf (completeOrder (raw.types.map Prod.fst) raw.order) p.2.type })) ∧
    c.aliases = raw.aliases ∧
    c.fallback = raw.fallback := by
  simp only [constructConfiguration] at h
  by_cases h1 : ((raw.types.map Prod.fst).contains raw.fallback ||
      objectPrototypeNames.contains raw.fallback) = true
  · rw [if_pos h1] at h
    rcases h2 : parseScopes (raw.types.map Prod.fst) raw.scopes with e | scopes
    · rw [h2] at h
      cases h
    · rw [h2] at h
      dsimp only at h
      by_cases h3 : ((completeOrder (raw.types.map Prod.fst) raw.order).all
          fun k => (raw.types.map Prod.fst).contains k) = true
      · rw [if_pos h3] at h
        cases h
        exact ⟨h1, rfl, h3, rfl, rfl, rfl, rfl⟩
      · rw [if_neg h3] at h
        cases h
  · rw [if_neg h1] at h
    cases h

theorem constructConfiguration_error {raw : RawConfiguration}
    (hfb : ((raw.types.map Prod.fst).contains raw.fallback ||
      objectPrototypeNames.contains raw.fallback) = false) :
    constructConfiguration raw =
      .error (.invalid "The fallback type must be a valid commit type.") := by
  simp only [constructConfiguration, hfb]
  rfl

/-! ### Helper lemmas: the object stage -/

theorem parseConfigurationObject_fields {ek : String → Bool} {fs : JObj} {raw : RawConfiguration}
    (h : parseConfigurationObject ek (.obj fs) = .ok raw) :
    (∀ ov, fs.lookup "order" = some ov → parseTextArray ov = .ok raw.order) ∧
    raw.scopes = fs.lookup "scopes" := by
  simp only [parseConfigurationObject] at h
  obtain ⟨types, h1, h⟩ := except_bind_ok h
  obtain ⟨aliases, h2, h⟩ := except_bind_ok h
  obtain ⟨fallback, h3, h⟩ := except_bind_ok h
  rcases ho : fs.lookup "order" with _ | ov0
  · rw [ho] at h
    dsimp only at h
    obtain ⟨order, h4, h⟩ := except_bind_ok h
    have hraw : raw =
        { types := types, aliases := aliases, fallback := fallback,
          scopes := fs.lookup "scopes", order := order } := by
      cases h
      rfl
    subst hraw
    refine ⟨?_, rfl⟩
    intro ov hov
    cases hov
  · rw [ho] at h
    dsimp only at h
    obtain ⟨order, h4, h⟩ := except_bind_ok h
    have hraw : raw =
        { types := types, aliases := aliases, fallback := fallback,
          scopes := fs.lookup "scopes", order := order } := by
      cases h
      rfl
    subst hraw
    refine ⟨?_, rfl⟩
    intro ov hov
    cases hov
    exact h4

/-! ### Helper lemmas: merged-object lookups -/

theorem JObj.lookup_cons_self (k : String) (v : Json) (tail : JObj) :
    (JObj.cons k v tail).lookup k = some v := by
  simp [JObj.lookup]

theorem JObj.lookup_cons_ne {kh k : String} (h : kh ≠ k) (v : Json) (tail : JObj) :
    (JObj.cons kh v tail).lookup k = tail.lookup k := by
  simp [JObj.lookup, h]

theorem JObj.lookup_append : ∀ (fs gs : JObj) (k : String),
    (fs.append gs).lookup k =
      (match fs.lookup k with
       | some v => some v
       | none => gs.lookup k)
  | .nil, _, _ => rfl
  | .cons kh v tail, gs, k => by
    by_cases h : kh = k
    · subst h
      rw [JObj.append, JObj.lookup_cons_self, JObj.lookup_cons_self]
    · rw [JObj.append, JObj.lookup_cons_ne h, JObj.lookup_cons_ne h]
      exact JObj.lookup_append tail gs k

theorem JObj.lookup_none_iff : ∀ (fs : JObj) (k : String), fs.lookup k = none ↔ k ∉ fs.keys
  | .nil, k => by simp [JObj.lookup, JObj.keys]
  | .cons kh v tail, k => by
    by_cases h : kh = k
    · subst h
      simp [JObj.lookup_cons_self, JObj.keys]
    · rw [JObj.lookup_cons_ne h, JObj.lookup_none_iff tail k]
      simp only [JObj.keys, List.mem_cons]
      constructor
      · rintro hn (h2 | h2)
        · exact h h2.symm
        · exact hn h2
      · intro hn
        exact fun h2 => hn (Or.inr h2)

theorem jmergeLeft_lookup : ∀ (gs fs : JObj) (seen : List String) (k : String),
    ¬ k = "__proto__" → k ∉ seen →
    (jmergeLeft gs fs seen).lookup k =
      (fs.lookup k).map (fun a =>
        match gs.lookup k with
        | some b => jmergeVal a b
        | none => a)
  | _, .nil, _, _, _, _ => rfl
  | gs, .cons kh a tail, seen, k, hp, hs => by
    simp only [jmergeLeft]
    by_cases hcond : (seen.contains kh || kh == "__proto__") = true
    · rw [if_pos hcond]
      have hk : kh ≠ k := by
        intro he
        subst he
        have hcond2 := hcond
        simp only [Bool.or_eq_true] at hcond2
        rcases hcond2 with h2 | h2
        · exact hs (contains_iff_memS.1 h2)
        · exact hp (beq_iff_eq.1 h2)
      rw [JObj.lookup_cons_ne hk]
      exact jmergeLeft_lookup gs tail seen k hp hs
    · rw [if_neg hcond]
      by_cases hk : kh = k
      · subst hk
        rcases hg : gs.lookup kh with _ | b
        · simp only [hg, JObj.lookup_cons_self, Option.map]
        · simp only [hg, JObj.lookup_cons_self, Option.map]
      · have hs2 : k ∉ kh :: seen := by
          simp only [List.mem_cons]
          rintro (h2 | h2)
          · exact hk h2.symm
          · exact hs h2
        rcases hg : gs.lookup kh with _ | b
        · dsimp only
          rw [JObj.lookup_cons_ne hk, JObj.lookup_cons_ne hk]
          exact jmergeLeft_lookup gs tail (kh :: seen) k hp hs2
        · dsimp only
          rw [JObj.lookup_cons_ne hk, JObj.lookup_cons_ne hk]
          exact jmergeLeft_lookup gs tail (kh :: seen) k hp hs2

theorem rightOnly_lookup_left : ∀ (leftKeys : List String) (gs : JObj) (seen : List String)
    (k : String), k ∈ leftKeys → (rightOnly leftKeys gs seen).lookup k = none
  | _, .nil, _, _, _ => rfl
  | leftKeys, .cons kh b tail, seen, k, hmem => by
    simp only [rightOnly]
    by_cases hcond : (leftKeys.contains kh || seen.contains kh || kh == "__proto__") = true
    · rw [if_pos hcond]
      exact rightOnly_lookup_left leftKeys tail seen k hmem
    · rw [if_neg hcond]
      have hkl : kh ∉ leftKeys := by
        intro hin
        exact hcond (by simp [hin])
      have hk : kh ≠ k := fun he => hkl (he ▸ hmem)
      rw [JObj.lookup_cons_ne hk]
      exact rightOnly_lookup_left leftKeys tail (kh :: seen) k hmem

theorem rightOnly_lookup : ∀ (leftKeys : List String) (gs : JObj) (seen : List String)
    (k : String), ¬ k = "__proto__" → k ∉ seen → k ∉ leftKeys →
    (rightOnly leftKeys gs seen).lookup k = gs.lookup k
  | _, .nil, _, _, _, _, _ => rfl
  | leftKeys, .cons kh b tail, seen, k, hp, hs, hl => by
    simp only [rightOnly]
    by_cases hcond : (leftKeys.contains kh || seen.contains kh || kh == "__proto__") = true
    · rw [if_pos hcond]
      have hk : kh ≠ k := by
        intro he
        subst he
        have hcond2 := hcond
        simp only [Bool.or_eq_true] at hcond2
        rcases hcond2 with (h2 | h2) | h2
        · exact hl (contains_iff_memS.1 h2)
        · exact hs (contains_iff_memS.1 h2)
        · exact hp (beq_iff_eq.1 h2)
      rw [JObj.lookup_cons_ne hk]
      exact rightOnly_lookup leftKeys tail seen k hp hs hl
    · rw [if_neg hcond]
      by_cases hk : kh = k
      · subst hk
        rw [JObj.lookup_cons_self, JObj.lookup_cons_self]
      · have hs2 : k ∉ kh :: seen := by
          simp only [List.mem_cons]
          rintro (h2 | h2)
          · exact hk h2.symm
          · exact hs h2
        rw [JObj.lookup_cons_ne hk, JObj.lookup_cons_ne hk]
        exact rightOnly_lookup leftKeys tail (kh :: seen) k hp hs2 hl

theorem deepMerge_lookupField (fs gs : JObj) (k : String) (hp : ¬ k = "__proto__") :
    (deepMerge (.obj fs) (.obj gs)).lookupField k =
      (match fs.lookup k, gs.lookup k with
       | some a, some b => some (deepMerge a b)
       | some a, none => some a
       | none, o => o) := by
  show ((jmergeLeft gs fs []).append (rightOnly fs.keys gs [])).lookup k = _
  rw [JObj.lookup_append, jmergeLeft_lookup gs fs [] k hp (by simp)]
  rcases hf : fs.lookup k with _ | a
  · have hnk : k ∉ fs.keys := (JObj.lookup_none_iff fs k).1 hf
    rw [rightOnly_lookup fs.keys gs [] k hp (by simp) hnk]
    rcases gs.lookup k with _ | b <;> rfl
  · rcases hg : gs.lookup k with _ | b <;> rfl

theorem deepMerge_obj_right (d : Json) (gs : JObj) :
    ∃ hs, deepMerge d (.obj gs) = .obj hs := by
  cases d <;> exact ⟨_, rfl⟩

theorem setFieldObj_lookup_self : ∀ (fs : JObj) (k : String) (v : Json),
    (setFieldObj fs k v).lookup k = some v
  | .nil, k, v => by simp [setFieldObj, JObj.lookup]
  | .cons k' v' tail, k, v => by
    by_cases h : k' == k
    · simp [setFieldObj, h, JObj.lookup]
    · simp only [setFieldObj, h, JObj.lookup]
      simpa [h] using setFieldObj_lookup_self tail k v


theorem constructConfiguration_keys {raw : RawConfiguration} {c : Configuration}
    (hok : constructConfiguration raw = .ok c) :
    c.types.map Prod.fst = raw.types.map Prod.fst := by
  obtain ⟨_, _, _, _, htypes, _, _⟩ := constructConfiguration_ok hok
  rw [htypes]
  simp [List.map_map, Function.comp]

/-! ### Helper lemmas: prototype-aware member access -/

theorem jsRecordGet_record {α : Type} {l : List (String × α)} {k : String} {v : α}
    (h : jsRecordGet l k = .record v) : (k, v) ∈ l := by
  unfold jsRecordGet at h
  rcases hl : lookupAssoc l k with _ | w
  · rw [hl] at h
    dsimp only at h
    split at h <;> cases h
  · rw [hl] at h
    dsimp only at h
    cases h
    exact lookupAssoc_mem hl

theorem jsRecordGet_null {α : Type} {l : List (String × α)} {k : String} :
    jsRecordGet l k = .null ↔ (k ∉ l.map Prod.fst ∧ k ∉ objectPrototypeNames) := by
  unfold jsRecordGet
  rcases hl : lookupAssoc l k with _ | w
  · have hk := lookupAssoc_eq_none.1 hl
    dsimp only
    by_cases hp : objectPrototypeNames.contains k = true
    · rw [if_pos hp]
      constructor
      · intro h
        cases h
      · rintro ⟨_, hnp⟩
        exact absurd (contains_iff_memS.1 hp) hnp
    · rw [if_neg hp]
      constructor
      · intro _
        exact ⟨hk, fun hm => hp (contains_iff_memS.2 hm)⟩
      · intro _
        rfl
  · dsimp only
    constructor
    · intro h
      cases h
    · rintro ⟨hnk, _⟩
      exact absurd (List.mem_map.2 ⟨(k, w), lookupAssoc_mem hl, rfl⟩) hnk

theorem jsRecordGet_inherited {α : Type} {l : List (String × α)} {k : String} :
    jsRecordGet l k = .inherited k ↔ (k ∉ l.map Prod.fst ∧ k ∈ objectPrototypeNames) := by
  unfold jsRecordGet
  rcases hl : lookupAssoc l k with _ | w
  · have hk := lookupAssoc_eq_none.1 hl
    dsimp only
    by_cases hp : objectPrototypeNames.contains k = true
    · rw [if_pos hp]
      constructor
      · intro _
        exact ⟨hk, contains_iff_memS.1 hp⟩
      · intro _
        rfl
    · rw [if_neg hp]
      constructor
      · intro h
        cases h
      · rintro ⟨_, hm⟩
        exact absurd (contains_iff_memS.2 hm) hp
  · dsimp only
    constructor
    · intro h
      cases h
    · rintro ⟨hnk, _⟩
      exact absurd (List.mem_map.2 ⟨(k, w), lookupAssoc_mem hl, rfl⟩) hnk

/-! ### Claims -/

/-- Claim C4 (corrected).  After every successful resolution the final
`order` has exactly the keys of `types` as members: membership in `order`
coincides with membership in the keys of `types`, and `order` is
duplicate-free whenever the raw input's `order` is.  The original claim's
"deduplicated regardless of duplicates in the raw order" is false: the
transform never removes duplicates already present in the raw `order` (see
the counterexample). -/
theorem C4_order_coverage (raw : RawConfiguration) (c : Configuration)
    (hok : constructConfiguration raw = .ok c) :
    (∀ k, k ∈ c.order ↔ k ∈ c.types.map Prod.fst) ∧
    (raw.order.Nodup → c.order.Nodup) := by
  obtain ⟨_, _, hall, hord_eq, _, _, _⟩ := constructConfiguration_ok hok
  have hkeys_eq := constructConfiguration_keys hok
  constructor
  · intro k
    rw [hord_eq, hkeys_eq]
    constructor
    · intro hk
      exact contains_iff_memS.1 (List.all_eq_true.1 hall k hk)
    · intro hk
      exact (completeOrder_mem raw.order).2 (Or.inr hk)
  · intro hnd
    rw [hord_eq]
    exact completeOrder_nodup raw.order hnd

/-- Witness for claim C4 at the concrete resolution of `rawSample`. -/
theorem C4_order_coverage_witness :
    (∀ k, k ∈ cfgSample.order ↔ k ∈ cfgSample.types.map Prod.fst) ∧
    (rawSample.order.Nodup → cfgSample.order.Nodup) :=
  C4_order_coverage rawSample cfgSample rfl

/-- Counterexample to claim C4 as stated: the raw document `docDupOrder`
lists `"a"` twice in `order`; resolution succeeds and the final `order` is
`["a", "a"]`, so the single key of `types` occurs twice — the final order
is not deduplicated. -/
theorem C4_counterexample :
    (Configuration.fromJson anyEmojiChar docDupOrder).toOption.map (fun c => c.order) =
      some ["a", "a"] ∧
    (["a", "a"] : List String).count "a" = 2 := ⟨rfl, rfl⟩

/-- Claim C5 (corrected).  The resolved `scopes` ranges over exactly the
keys of `types`: a `types` key missing from the raw `scopes` object is
defaulted to `[]`, a `types` key listed there keeps its (validated) entry,
and every key that is not a key of `types` — alias keys included — is
stripped, neither preserved nor defaulted.  The original claim's
"type-or-alias key" is false for alias keys (see the counterexample). -/
theorem C5_scopes_defaulting (raw : RawConfiguration) (c : Configuration) (fs : JObj)
    (hok : constructConfiguration raw = .ok c)
    (hsc : raw.scopes = some (.obj fs)) :
    c.scopes.map Prod.fst = raw.types.map Prod.fst ∧
    (∀ k, k ∈ raw.types.map Prod.fst → fs.lookup k = none →
      lookupAssoc c.scopes k = some []) ∧
    (∀ k v, k ∈ raw.types.map Prod.fst → fs.lookup k = some v →
      ∃ l, parseTextArray v = .ok l ∧ lookupAssoc c.scopes k = some l) ∧
    (∀ k, k ∉ raw.types.map Prod.fst → lookupAssoc c.scopes k = none) := by
  obtain ⟨_, hsc_ok, _, _, _, _, _⟩ := constructConfiguration_ok hok
  rw [hsc] at hsc_ok
  obtain ⟨hkeys, _⟩ := parseScopes_ok_eq _ _ hsc_ok
  refine ⟨hkeys, ?_, ?_, ?_⟩
  · intro k hk hnone
    obtain ⟨l, hent, hla⟩ := parseScopes_lookup_some hsc_ok hk
    rw [hla]
    simp only [scopeEntry, hnone, Except.ok.injEq] at hent
    rw [hent]
  · intro k v hk hv
    obtain ⟨l, hent, hla⟩ := parseScopes_lookup_some hsc_ok hk
    refine ⟨l, ?_, hla⟩
    simpa only [scopeEntry, hv] using hent
  · intro k hk
    exact parseScopes_lookup_none hsc_ok hk

/-- Witness for claim C5 at the concrete resolution of `rawSample`. -/
theorem C5_scopes_defaulting_witness :
    cfgSample.scopes.map Prod.fst = rawSample.types.map Prod.fst ∧
    (∀ k, k ∈ rawSample.types.map Prod.fst → JObj.nil.lookup k = none →
      lookupAssoc cfgSample.scopes k = some []) ∧
    (∀ k v, k ∈ rawSample.types.map Prod.fst → JObj.nil.lookup k = some v →
      ∃ l, parseTextArray v = .ok l ∧ lookupAssoc cfgSample.scopes k = some l) ∧
    (∀ k, k ∉ rawSample.types.map Prod.fst → lookupAssoc cfgSample.scopes k = none) :=
  C5_scopes_defaulting rawSample cfgSample .nil rfl rfl

/-- Counterexample to claim C5 as stated: in `docAliasScopes` the raw
`scopes` lists the alias key `dep` with the entry `["x"]`, yet the resolved
`scopes` is `[("a", [])]` — the listed alias entry is neither preserved nor
defaulted to `[]`; it is stripped. -/
theorem C5_counterexample :
    (Configuration.fromJson anyEmojiChar docAliasScopes).toOption.map (fun c => c.scopes) =
      some [("a", [])] ∧
    (Configuration.fromJson anyEmojiChar docAliasScopes).toOption.map
      (fun c => c.aliases.map Prod.fst) = some ["dep"] ∧
    docAliasScopes.lookupField "scopes" =
      some (.obj (.ofList [("dep", .arr (.ofList [.str "x"]))])) := ⟨rfl, rfl, rfl⟩

/-- Claim C9 (code bug).  The refine step implements "fallback must be a
key of `types`" with the JavaScript `in` operator, which consults the
prototype chain: a document whose fallback is the `Object.prototype`
property name `toString`, absent from `types`, resolves successfully and
produces a `Configuration`, contradicting the refine's own message
("The fallback type must be a valid commit type.") and the claimed
`ValidationError`.  A fallback that is neither a key of `types` nor an
`Object.prototype` property name does fail with that `ValidationError`. -/
theorem C9_fallback_prototype :
    (Configuration.fromJson anyEmojiChar docProtoFallback).toOption.map
      (fun c => (c.fallback, c.types.map Prod.fst)) = some ("toString", ["a"]) ∧
    "toString" ∉ (["a"] : List String) ∧
    "toString" ∈ objectPrototypeNames ∧
    constructConfiguration rawFallbackMissing =
      .error (.invalid "The fallback type must be a valid commit type.") :=
  ⟨rfl, by decide, by decide, rfl⟩

/-- Claim C10 (confirmed).  An `order` entry that is not a key of `types`
makes the construction fail (the `z.array(schema.keyof())` parse), and
consequently after every successful resolution every entry of the final
`order` is a key of `types`. -/
theorem C10_order_membership (raw : RawConfiguration) :
    (∀ o, o ∈ raw.order → o ∉ raw.types.map Prod.fst →
      ∃ e, constructConfiguration raw = .error e) ∧
    (∀ c, constructConfiguration raw = .ok c →
      ∀ o ∈ c.order, o ∈ c.types.map Prod.fst) := by
  constructor
  · intro o ho hno
    by_cases h1 : ((raw.types.map Prod.fst).contains raw.fallback ||
        objectPrototypeNames.contains raw.fallback) = true
    · rcases h2 : parseScopes (raw.types.map Prod.fst) raw.scopes with e | scopes
      · refine ⟨e, ?_⟩
        simp only [constructConfiguration]
        rw [if_pos h1, h2]
      · refine ⟨.invalid "Invalid enum value", ?_⟩
        have hfalse : ¬ ((completeOrder (raw.types.map Prod.fst) raw.order).all
            fun k => (raw.types.map Prod.fst).contains k) = true := by
          intro hall
          have hmem : o ∈ completeOrder (raw.types.map Prod.fst) raw.order :=
            (completeOrder_mem raw.order).2 (Or.inl ho)
          exact hno (contains_iff_memS.1 (List.all_eq_true.1 hall o hmem))
        simp only [constructConfiguration]
        rw [if_pos h1, h2]
        dsimp only
        rw [if_neg hfalse]
    · refine ⟨_, constructConfiguration_error ?_⟩
      rwa [Bool.not_eq_true] at h1
  · intro c hc o ho
    obtain ⟨_, _, hall, hord_eq, _, _, _⟩ := constructConfiguration_ok hc
    rw [hord_eq] at ho
    rw [constructConfiguration_keys hc]
    exact contains_iff_memS.1 (List.all_eq_true.1 hall o ho)

/-- Witness for claim C10: `rawBogusOrder` lists `bogus` in `order`, which
is not among its `types` keys, so construction fails. -/
theorem C10_order_membership_witness :
    ∃ e, constructConfiguration rawBogusOrder = .error e :=
  (C10_order_membership rawBogusOrder).1 "bogus" (by decide) (by decide)

/-- Claim C8 (corrected).  All five lookups are pure total functions of
the resolved value; `findTypeByEmojiCode`/`findAliasByEmojiCode` iterate
own enumerable keys only and return the matching record or null; and
`findTypeByName`/`findAliasByName` return the matching record for an own
key and null on a miss for every name that is not an `Object.prototype`
property name — but for an `Object.prototype` property name that is not a
key (`toString`, `valueOf`, ...), the `name in` guard passes through the
prototype chain and the inherited member, which is neither null nor a
record, is returned (see `C8_counterexample`).  `findTypeByAliasName` is
the stated composition, with an inherited alias leading to a lookup of the
coerced key `undefined`. -/
theorem C8_lookup_contract (c : Configuration) :
    (∀ name t, c.findTypeByName name = .record t → (name, t) ∈ c.types) ∧
    (∀ name, c.findTypeByName name = .null ↔
      (name ∉ c.types.map Prod.fst ∧ name ∉ objectPrototypeNames)) ∧
    (∀ name, c.findTypeByName name = .inherited name ↔
      (name ∉ c.types.map Prod.fst ∧ name ∈ objectPrototypeNames)) ∧
    (∀ name a, c.findAliasByName name = .record a → (name, a) ∈ c.aliases) ∧
    (∀ name, c.findAliasByName name = .null ↔
      (name ∉ c.aliases.map Prod.fst ∧ name ∉ objectPrototypeNames)) ∧
    (∀ name, c.findAliasByName name = .inherited name ↔
      (name ∉ c.aliases.map Prod.fst ∧ name ∈ objectPrototypeNames)) ∧
    (∀ name, c.findTypeByAliasName name =
      (match c.findAliasByName name with
       | .null => .null
       | .record al => c.findTypeByName al.type
       | .inherited _ => c.findTypeByName "undefined")) ∧
    (∀ e t, c.findTypeByEmojiCode e = some t →
      t.emoji.code = e ∧ ∃ k, (k, t) ∈ c.types) ∧
    (∀ e, c.findTypeByEmojiCode e = none ↔
      ∀ p ∈ c.types, ¬ (Prod.snd p).emoji.code = e) ∧
    (∀ e a, c.findAliasByEmojiCode e = some a →
      a.emoji.code = e ∧ ∃ k, (k, a) ∈ c.aliases) ∧
    (∀ e, c.findAliasByEmojiCode e = none ↔
      ∀ p ∈ c.aliases, ¬ (Prod.snd p).emoji.code = e) := by
  refine ⟨?_, ?_, ?_, ?_, ?_, ?_, fun name => rfl, ?_, ?_, ?_, ?_⟩
  · intro name t h
    exact jsRecordGet_record h
  · intro name
    exact jsRecordGet_null
  · intro name
    exact jsRecordGet_inherited
  · intro name a h
    exact jsRecordGet_record h
  · intro name
    exact jsRecordGet_null
  · intro name
    exact jsRecordGet_inherited
  · intro e t h
    simp only [Configuration.findTypeByEmojiCode] at h
    rcases hf : c.types.find? (fun p => p.2.emoji.code == e) with _ | q
    · rw [hf] at h
      cases h
    · rw [hf] at h
      have hq := List.find?_some hf
      have hqm := List.mem_of_find?_eq_some hf
      cases h
      exact ⟨beq_iff_eq.1 hq, ⟨q.1, by simpa using hqm⟩⟩
  · intro e
    simp only [Configuration.findTypeByEmojiCode]
    constructor
    · intro h p hp he
      rcases hf : c.types.find? (fun p => p.2.emoji.code == e) with _ | q
      · have := List.find?_eq_none.1 hf p hp
        exact this (by simp [he])
      · rw [hf] at h
        cases h
    · intro hall
      rcases hf : c.types.find? (fun p => p.2.emoji.code == e) with _ | q
      · simp [hf]
      · have hq := List.find?_some hf
        have hm := List.mem_of_find?_eq_some hf
        exact absurd (beq_iff_eq.1 hq) (hall q hm)
  · intro e a h
    simp only [Configuration.findAliasByEmojiCode] at h
    rcases hf : c.aliases.find? (fun p => p.2.emoji.code == e) with _ | q
    · rw [hf] at h
      cases h
    · rw [hf] at h
      have hq := List.find?_some hf
      have hqm := List.mem_of_find?_eq_some hf
      cases h
      exact ⟨beq_iff_eq.1 hq, ⟨q.1, by simpa using hqm⟩⟩
  · intro e
    simp only [Configuration.findAliasByEmojiCode]
    constructor
    · intro h p hp he
      rcases hf : c.aliases.find? (fun p => p.2.emoji.code == e) with _ | q
      · have := List.find?_eq_none.1 hf p hp
        exact this (by simp [he])
      · rw [hf] at h
        cases h
    · intro hall
      rcases hf : c.aliases.find? (fun p => p.2.emoji.code == e) with _ | q
      · simp [hf]
      · have hq := List.find?_some hf
        have hm := List.mem_of_find?_eq_some hf
        exact absurd (beq_iff_eq.1 hq) (hall q hm)

/-- Witness for claim C8 at the concrete configuration `cfgSample`: the
alias composition instantiated at the alias key `dep` and a concrete
null-returning miss. -/
theorem C8_lookup_contract_witness :
    cfgSample.findTypeByAliasName "dep" =
      (match cfgSample.findAliasByName "dep" with
       | .null => .null
       | .record al => cfgSample.findTypeByName al.type
       | .inherited _ => cfgSample.findTypeByName "undefined") ∧
    (cfgSample.findTypeByName "zzz" = .null ↔
      ("zzz" ∉ cfgSample.types.map Prod.fst ∧ "zzz" ∉ objectPrototypeNames)) :=
  ⟨(C8_lookup_contract cfgSample).2.2.2.2.2.2.1 "dep",
   (C8_lookup_contract cfgSample).2.1 "zzz"⟩

/-- Counterexample to claim C8 as stated: on the resolved configuration
`cfgSample`, `findTypeByName "toString"` is a miss (no such key), yet the
method returns the inherited `Object.prototype.toString` member, not null. -/
theorem C8_counterexample :
    cfgSample.findTypeByName "toString" = .inherited "toString" ∧
    (JsMember.inherited "toString" : JsMember IndexedCommitType) ≠ .null ∧
    "toString" ∉ cfgSample.types.map Prod.fst := ⟨rfl, by decide, by decide⟩

/-- Claim C1 (corrected).  For every successful resolution whose parsed
input has unique record keys (as `JSON.parse` output does), a duplicate-free
raw `order`, and every record's `type` field equal to its key, the
constructor's `index = order.indexOf(record.type)` gives each record the
zero-based position of its `type` value in the final `order`, and these
indices are unique and dense in `[0, count)`.  The unamended claim fails
when a record's `type` field differs from its key (index `-1`, see
`C1_counterexample`) or when the raw `order` repeats an entry. -/
theorem C1_index_assignment (raw : RawConfiguration) (c : Configuration)
    (hok : constructConfiguration raw = .ok c)
    (hkeys : (raw.types.map Prod.fst).Nodup)
    (hty : ∀ p ∈ raw.types, (Prod.snd p).type = Prod.fst p)
    (hord : raw.order.Nodup) :
    (∀ p ∈ c.types, ∃ n : Nat, (Prod.snd p).index = (n : Int) ∧
        c.order.get? n = some (Prod.snd p).type) ∧
    (∀ p ∈ c.types, 0 ≤ (Prod.snd p).index ∧
        (Prod.snd p).index < (c.types.length : Int)) ∧
    (∀ p ∈ c.types, ∀ q ∈ c.types, Prod.fst p ≠ Prod.fst q →
        (Prod.snd p).index ≠ (Prod.snd q).index) ∧
    (∀ i : Nat, i < c.types.length → ∃ p ∈ c.types, (Prod.snd p).index = (i : Int)) := by
  obtain ⟨hfb, hsc, hall, hord_eq, htypes, hals, hfbe⟩ := constructConfiguration_ok hok
  set O := completeOrder (raw.types.map Prod.fst) raw.order with hO
  have hmemO : ∀ x, x ∈ O ↔ x ∈ raw.types.map Prod.fst := by
    intro x
    constructor
    · intro hx
      exact contains_iff_memS.1 (List.all_eq_true.1 hall x hx)
    · intro hx
      exact (completeOrder_mem raw.order).2 (Or.inr hx)
  have hOnodup : O.Nodup := completeOrder_nodup raw.order hord
  have hperm : List.Perm O (raw.types.map Prod.fst) :=
    (List.perm_ext_iff_of_nodup hOnodup hkeys).2 hmemO
  have hlenO : O.length = (raw.types.map Prod.fst).length := hperm.length_eq
  have hlenT : c.types.length = (raw.types.map Prod.fst).length := by
    rw [htypes]
    simp
  have hidx : ∀ p ∈ c.types, ∃ n : Nat, (Prod.snd p).index = (n : Int) ∧
      c.order.get? n = some (Prod.snd p).type ∧ n < c.types.length ∧
      (Prod.snd p).type = Prod.fst p := by
    intro p hp
    rw [htypes] at hp
    obtain ⟨q, hq, rfl⟩ := List.mem_map.1 hp
    have htyq : q.2.type = q.1 := hty q hq
    have hkq : q.1 ∈ raw.types.map Prod.fst := List.mem_map.2 ⟨q, hq, rfl⟩
    have hkO : q.1 ∈ O := (hmemO q.1).2 hkq
    obtain ⟨n, hfind, hget, hlt⟩ := findIdx_of_mem hkO
    refine ⟨n, ?_, ?_, ?_, htyq⟩
    · show jsIndexOf O q.2.type = (n : Int)
      rw [htyq]
      simp [jsIndexOf, hfind]
    · show c.order.get? n = some q.2.type
      rw [hord_eq, htyq]
      exact hget
    · rw [hlenT, ← hlenO]
      exact hlt
  refine ⟨?_, ?_, ?_, ?_⟩
  · intro p hp
    obtain ⟨n, hn, hget, _, _⟩ := hidx p hp
    exact ⟨n, hn, hget⟩
  · intro p hp
    obtain ⟨n, hn, _, hlt, _⟩ := hidx p hp
    rw [hn]
    exact ⟨Int.natCast_nonneg n, by exact_mod_cast hlt⟩
  · intro p hp q hq hne heq
    obtain ⟨n1, hn1, hget1, _, hty1⟩ := hidx p hp
    obtain ⟨n2, hn2, hget2, _, hty2⟩ := hidx q hq
    rw [hn1, hn2] at heq
    have hnn : n1 = n2 := by exact_mod_cast heq
    subst hnn
    apply hne
    rw [← hty1, ← hty2]
    exact Option.some.inj (hget1.symm.trans hget2)
  · intro i hi
    have hiO : i < O.length := by
      rw [hlenO, ← hlenT]
      exact hi
    rcases hg : O.get? i with _ | k
    · rw [List.get?_eq_none] at hg
      omega
    · have hkmem : k ∈ O := List.get?_mem hg
      have hkK : k ∈ raw.types.map Prod.fst := (hmemO k).1 hkmem
      obtain ⟨q, hq, hq1⟩ := List.mem_map.1 hkK
      refine ⟨(q.1, { toCommitType := q.2, index := jsIndexOf O q.2.type }), ?_, ?_⟩
      · rw [htypes]
        exact List.mem_map.2 ⟨q, hq, rfl⟩
      · show jsIndexOf O q.2.type = (i : Int)
        rw [hty q hq, hq1]
        have hfind := findIdx_of_get_nodup hOnodup hg
        simp [jsIndexOf, hfind]

/-- Witness for claim C1 at the concrete resolution of `rawSample`. -/
theorem C1_index_assignment_witness :
    (∀ p ∈ cfgSample.types, ∃ n : Nat, (Prod.snd p).index = (n : Int) ∧
        cfgSample.order.get? n = some (Prod.snd p).type) ∧
    (∀ p ∈ cfgSample.types, 0 ≤ (Prod.snd p).index ∧
        (Prod.snd p).index < (cfgSample.types.length : Int)) ∧
    (∀ p ∈ cfgSample.types, ∀ q ∈ cfgSample.types, Prod.fst p ≠ Prod.fst q →
        (Prod.snd p).index ≠ (Prod.snd q).index) ∧
    (∀ i : Nat, i < cfgSample.types.length →
        ∃ p ∈ cfgSample.types, (Prod.snd p).index = (i : Int)) :=
  C1_index_assignment rawSample cfgSample rfl (by decide) (by decide) (by decide)

/-- Counterexample to claim C1 as stated: in `docKeyMismatch` the record is
stored under key `a` but its `type` field is `b`; resolution succeeds with
final order `["a"]`, yet the record's index is `-1`, not a defined, unique,
dense index in `[0, 1)` and not the position of `b` in the order. -/
theorem C1_counterexample :
    (Configuration.fromJson anyEmojiChar docKeyMismatch).toOption.map
      (fun c => (c.order, c.types.map fun p => (p.1, (Prod.snd p).index))) =
      some (["a"], [("a", -1)]) := rfl

/-- Claim C2 (confirmed).  In a layered load whose custom document has an
`order` field, the resolved order is exactly the custom document's order
(as validated by the schema) followed by the keys of the merged `types`
that it misses, in their `types` iteration order — never a merge or
concatenation of the two documents' orders. -/
theorem C2_custom_order (ek : String → Bool) (dflt : Json) (cfs : JObj)
    (ov : Json) (co : List String) (cfg : Configuration)
    (hov : cfs.lookup "order" = some ov)
    (hco : parseTextArray ov = .ok co)
    (hok : Configuration.fromFilesJson ek dflt (.obj cfs) = .ok cfg)
    (hnd : (cfg.types.map Prod.fst).Nodup) :
    cfg.order = co ++ (cfg.types.map Prod.fst).filter (fun k => !(co.contains k)) := by
  obtain ⟨hs, hobj⟩ := deepMerge_obj_right dflt cfs
  have hfrom : Configuration.fromJson ek (setField (deepMerge dflt (.obj cfs)) "order" ov) =
      .ok cfg := by
    simpa [Configuration.fromFilesJson, hov] using hok
  rw [hobj] at hfrom
  simp only [Configuration.fromJson, setField] at hfrom
  obtain ⟨raw, hdec, hcon⟩ := except_bind_ok hfrom
  obtain ⟨hofun, _⟩ := parseConfigurationObject_fields hdec
  have horder : parseTextArray ov = .ok raw.order :=
    hofun ov (setFieldObj_lookup_self hs "order" ov)
  have hroword : raw.order = co := by
    rw [hco] at horder
    exact (Option.some.inj (congrArg Except.toOption horder)).symm
  obtain ⟨_, _, _, hord_eq, _, _, _⟩ := constructConfiguration_ok hcon
  have hkeys_eq : cfg.types.map Prod.fst = raw.types.map Prod.fst :=
    constructConfiguration_keys hcon
  have hnd2 : (raw.types.map Prod.fst).Nodup := hkeys_eq ▸ hnd
  rw [hord_eq, hroword, completeOrder_eq_append hnd2 co, hkeys_eq]

/-- Witness for claim C2: layered load of `docDflt` under `docCustomOrder`,
whose order is `["b"]`; the resolved order is `["b", "a"]`. -/
theorem C2_custom_order_witness :
    cfgMerged.order =
      ["b"] ++ (cfgMerged.types.map Prod.fst).filter
        (fun k => !((["b"] : List String).contains k)) :=
  C2_custom_order anyEmojiChar docDflt customOrderFields (.arr (.ofList [.str "b"]))
    ["b"] cfgMerged rfl rfl rfl (by decide)

/-- Claim C3 (corrected).  The layered deep merge does recurse into nested
objects and does let the custom document override the defaults at every
matching key whose values are not both plain objects or both arrays; but
when both values are arrays the merged value is the CONCATENATION of the
defaults' array and the custom's array (deno `deepMerge` default
`arrays: "merge"`), not the custom's array alone — see
`C3_counterexample`. -/
theorem C3_deep_merge_behaviour (fs gs : JObj) (k : String) (hp : ¬ k = "__proto__") :
    ((deepMerge (.obj fs) (.obj gs)).lookupField k =
      (match fs.lookup k, gs.lookup k with
       | some a, some b => some (deepMerge a b)
       | some a, none => some a
       | none, o => o)) ∧
    (∀ as bs : JArr, deepMerge (.arr as) (.arr bs) = .arr (as.append bs)) ∧
    (∀ fs2 gs2 : JObj, ∃ hs : JObj, deepMerge (.obj fs2) (.obj gs2) = .obj hs) ∧
    (∀ a : Json, ∀ s : String, deepMerge a (.str s) = .str s) ∧
    (∀ a : Json, ∀ n : Int, deepMerge a (.num n) = .num n) ∧
    (∀ a : Json, ∀ b : Bool, deepMerge a (.bool b) = .bool b) ∧
    (∀ a : Json, deepMerge a .null = .null) := by
  refine ⟨deepMerge_lookupField fs gs k hp, fun as bs => rfl, fun fs2 gs2 => ⟨_, rfl⟩,
    ?_, ?_, ?_, ?_⟩
  · intro a s
    cases a <;> rfl
  · intro a n
    cases a <;> rfl
  · intro a b
    cases a <;> rfl
  · intro a
    cases a <;> rfl

/-- Witness for claim C3: the merged value of the `scopes` field of
`docDflt` and `docCustomScopes` is the recursive merge of the two scope
objects. -/
theorem C3_deep_merge_behaviour_witness :
    (deepMerge docDflt docCustomScopes).lookupField "scopes" =
      some (deepMerge (.obj (.ofList [("a", .arr (.ofList [.str "x"]))]))
        (.obj (.ofList [("a", .arr (.ofList [.str "y"]))]))) := by
  have h := (C3_deep_merge_behaviour
    (.ofList
      [("types", .obj (.ofList [("a", jCommitType "a"), ("b", jCommitType "b")])),
       ("aliases", .obj .nil),
       ("fallback", .str "a"),
       ("scopes", .obj (.ofList [("a", .arr (.ofList [.str "x"]))])),
       ("order", .arr (.ofList [.str "a", .str "b"]))])
    (.ofList [("scopes", .obj (.ofList [("a", .arr (.ofList [.str "y"]))]))])
    "scopes" (by decide)).1
  rw [docDflt, docCustomScopes, h]
  rfl

/-- Counterexample to claim C3 as stated: in the layered load of `docDflt`
under `docCustomScopes`, the array field `scopes.a` appears in both
documents (`["x"]` in the defaults, `["y"]` in the custom document), and
the resolved value is the concatenation `["x", "y"]`, not the custom
document's array `["y"]`. -/
theorem C3_counterexample :
    (Configuration.fromFilesJson anyEmojiChar docDflt docCustomScopes).toOption.map
      (fun c => c.scopes) = some [("a", ["x", "y"]), ("b", [])] ∧
    docCustomScopes.lookupField "scopes" =
      some (.obj (.ofList [("a", .arr (.ofList [.str "y"]))])) ∧
    parseTextArray (.arr (.ofList [.str "y"])) = .ok ["y"] ∧
    (["x", "y"] : List String) ≠ ["y"] := ⟨rfl, rfl, rfl, by decide⟩

/-- Claim C6 (confirmed, against the specification model of the missing
`template.ts`).  `render` fails with a `MissingPlaceholderError` naming
exactly the unresolved placeholders when any placeholder resolves neither
from the supplied values nor from the defaults, and no string is returned
in that case; when every placeholder resolves it returns the pattern with
every occurrence substituted.  Supplied values take priority over defaults,
and numbers and booleans are substituted in canonical text form. -/
theorem C6_render_contract (t : Template) (values : List (String × Scalar)) :
    ((∃ n, n ∈ holeNames (parseSegs t.source) ∧ resolve values t.replacements n = none) →
      ∃ names, t.render values = .error ⟨names⟩ ∧ names ≠ [] ∧
        ∀ n, n ∈ names ↔
          (n ∈ holeNames (parseSegs t.source) ∧ resolve values t.replacements n = none)) ∧
    ((∀ n ∈ holeNames (parseSegs t.source), (resolve values t.replacements n).isSome) →
      t.render values = .ok (renderSegs (resolve values t.replacements) (parseSegs t.source))) ∧
    (∀ n v, lookupAssoc values n = some v → resolve values t.replacements n = some v) ∧
    (∀ n, lookupAssoc values n = none →
      resolve values t.replacements n = lookupAssoc t.replacements n) ∧
    (∀ i : Int, Scalar.toText (.num i) = intDec i) ∧
    (∀ b : Bool, Scalar.toText (.bool b) = if b then "true" else "false") := by
  refine ⟨?_, ?_, ?_, ?_, fun i => rfl, fun b => rfl⟩
  · rintro ⟨n, hn, hres⟩
    have hmem : n ∈ (holeNames (parseSegs t.source)).filter
        (fun m => (resolve values t.replacements m).isNone) :=
      List.mem_filter.2 ⟨hn, by simp [hres]⟩
    refine ⟨(holeNames (parseSegs t.source)).filter
      (fun m => (resolve values t.replacements m).isNone), ?_, ?_, ?_⟩
    · simp only [Template.render]
      rcases hc : (holeNames (parseSegs t.source)).filter
          (fun m => (resolve values t.replacements m).isNone) with _ | ⟨m, ms⟩
      · rw [hc] at hmem
        cases hmem
      · rfl
    · intro hnil
      rw [hnil] at hmem
      cases hmem
    · intro m
      rw [List.mem_filter]
      constructor
      · rintro ⟨h1, h2⟩
        exact ⟨h1, Option.isNone_iff_eq_none.1 h2⟩
      · rintro ⟨h1, h2⟩
        exact ⟨h1, by simp [h2]⟩
  · intro hres
    have hnil : (holeNames (parseSegs t.source)).filter
        (fun m => (resolve values t.replacements m).isNone) = [] := by
      rw [List.filter_eq_nil_iff]
      intro a ha hN
      have hsome := hres a ha
      have h2 : resolve values t.replacements a = none := Option.isNone_iff_eq_none.1 hN
      rw [h2] at hsome
      cases hsome
    simp only [Template.render]
    rw [hnil]
    rfl
  · intro n v h
    simp [resolve, h]
  · intro n h
    simp [resolve, h]

/-- Witness for claim C6: a full render with priority of supplied values
over defaults and a failing render naming the open placeholder. -/
theorem C6_render_contract_witness :
    tmplGreeting.render [("name", .str "John"), ("age", .num 20)] =
      .ok "Hello John! My age is 20." ∧
    (∃ names, tmplHi.render [] = .error ⟨names⟩ ∧ names ≠ []) := by
  constructor
  · have h := (C6_render_contract tmplGreeting
      [("name", .str "John"), ("age", .num 20)]).2.1 (by decide)
    rw [h]
    rfl
  · obtain ⟨names, herr, hne, _⟩ :=
      (C6_render_contract tmplHi []).1 ⟨"name", by decide, by decide⟩
    exact ⟨names, herr, hne⟩

/-- Claim C7 (corrected).  `partialRender` substitutes exactly the
placeholders that received a value in the call — a placeholder whose only
binding is a default stays open, verbatim with its braces — and the
returned template carries forward exactly the original defaults whose
placeholder is still open in the produced pattern; the original instance is
unchanged (all operations here are pure).  The original claim's
"resolvable from the supplied values or defaults substituted" contradicts
the repository's own partial-render tests: see `C7_counterexample`. -/
theorem C7_partial_render (t : Template) (values : List (String × Scalar)) :
    (t.partialRender values).source =
      renderSegs (fun n => lookupAssoc values n) (parseSegs t.source) ∧
    (∀ n, lookupAssoc values n = none →
      Seg.render (fun m => lookupAssoc values m) (.hole n) = "\x7b" ++ n ++ "\x7d") ∧
    (∀ n v, lookupAssoc values n = some v →
      Seg.render (fun m => lookupAssoc values m) (.hole n) = v.toText) ∧
    (∀ p, p ∈ (t.partialRender values).replacements ↔
      (p ∈ t.replacements ∧
        p.1 ∈ (holeNames (parseSegs t.source)).filter
          (fun n => (lookupAssoc values n).isNone))) := by
  refine ⟨rfl, ?_, ?_, ?_⟩
  · intro n h
    simp [Seg.render, h]
  · intro n v h
    simp [Seg.render, h]
  · intro p
    simp only [Template.partialRender]
    rw [List.mem_filter]
    constructor
    · rintro ⟨hp, hmem⟩
      exact ⟨hp, contains_iff_memS.1 hmem⟩
    · rintro ⟨hp, hmem⟩
      exact ⟨hp, contains_iff_memS.2 hmem⟩

/-- Witness for claim C7: the partial-render test case — `first_name`
receives `Sam`, `last_name` stays open, and only its default is carried. -/
theorem C7_partial_render_witness :
    (tmplNames.partialRender [("first_name", Scalar.str "Sam")]).source =
      "My name is Sam \x7blast_name\x7d" ∧
    (tmplNames.partialRender [("first_name", Scalar.str "Sam")]).replacements =
      [("last_name", Scalar.str "Unknown")] := by
  have h := C7_partial_render tmplNames [("first_name", Scalar.str "Sam")]
  exact ⟨h.1.trans (by rfl), by rfl⟩

/-- Counterexample to claim C7 as stated: with `tmplNames`, whose defaults
bind both names, `partialRender` with a value for `first_name` only leaves
`last_name` verbatim even though it is resolvable from the defaults — the
produced pattern is not the one the claim's substitution clause demands. -/
theorem C7_counterexample :
    lookupAssoc tmplNames.replacements "last_name" = some (Scalar.str "Unknown") ∧
    resolve [("first_name", Scalar.str "Sam")] tmplNames.replacements "last_name" =
      some (Scalar.str "Unknown") ∧
    (tmplNames.partialRender [("first_name", Scalar.str "Sam")]).source =
      "My name is Sam \x7blast_name\x7d" ∧
    "My name is Sam \x7blast_name\x7d" ≠ "My name is Sam Unknown" :=
  ⟨rfl, rfl, rfl, by decide⟩
